import Mathlib

/-!
Verification of the VRP attention model in src/nn.py.

The development shallowly embeds the route-construction state machine of
decode_greedy / decode_iteration, the per-step forbidden-node masking, the
capacity bookkeeping, the log-probability accumulation, the cost evaluator
get_cost, and the masked-attention weight computation used by PointerDecoder.

Modelling choices:
* the embedding works per batch element: every array operation of the loop
  (mask building, updates, argmax, sampling) is elementwise in the batch
  dimension, so one batch element carries the whole behaviour;
* machine floats are idealised as exact rationals inside the loop and as
  real numbers in the cost / attention computations (square roots and
  exponentials are irrational);
* the neural decoder, the splittable PRNG and the categorical sampler are
  external collaborators of the loop; they enter the embedding as explicit
  function parameters, so every theorem quantifies over all of them;
* log_softmax is a transcendental function of the logits; the loop only
  ever adds its value at the chosen index to the accumulator, so it is a
  function parameter as well.
-/

/-- Customer indicator.  In the source, customer_mask is an all-ones boolean
array whose entry 0 (the depot) is cleared: jnp.ones(...).at[:, 0].set(0). -/
def customer_mask (i : ℕ) : Bool := decide (i ≠ 0)

/-- The test (visited | ~customer_mask).all(axis=-1) of decode_iteration:
true exactly when every customer node is visited (the depot entry is
satisfied by ~customer_mask). -/
def allCustomersVisited (n : ℕ) (visited : ℕ → Bool) : Bool :=
  (List.range n).all (fun i => visited i || !(customer_mask i))

/-- First stage of the next-node mask of decode_iteration:
(visited & customer_mask) | (demands > capacities). -/
def baseMask (demands : ℕ → ℚ) (visited : ℕ → Bool) (cap : ℚ) : ℕ → Bool :=
  fun i => (visited i && customer_mask i) || decide (cap < demands i)

/-- The complete next-node mask of decode_iteration, lines 279-294: the base
mask, then the current node is set forbidden, then entry 0 is overwritten
with (~(visited | ~customer_mask).all(-1)) & mask[0]. -/
def next_node_mask (n : ℕ) (demands : ℕ → ℚ) (visited : ℕ → Bool) (cap : ℚ)
    (current : ℕ) : ℕ → Bool :=
  let m2 := Function.update (baseMask demands visited cap) current true
  Function.update m2 0 (!(allCustomersVisited n visited) && m2 0)

/-- jnp.argmax over entries 0..n-1 of a vector with possibly -inf (⊥)
entries: the first index attaining the maximum; 0 on an all-⊥ vector. -/
def argmaxIdx (f : ℕ → WithBot ℚ) (n : ℕ) : ℕ :=
  (List.range n).foldl (fun best i => if f best < f i then i else best) 0

/-- All the external collaborators and instance data a decode run consumes.
R is the abstract type of PRNG keys.
* n, demands, coords: the problem instance (node 0 is the depot);
* split: jax.random.split, returning (carry key, consumed key);
* dec: the PointerDecoder's pre-masking logits (clip * tanh scores) as a
  function of dropout key, current node, remaining capacity and mask --
  the final jnp.where(mask, -inf, logits) is applied by the loop embedding;
* det: the deterministic flag of solve;
* samp: the categorical sampler jax.random.choice used when det is false;
* lsm: log_softmax of the masked logits, as evaluated at one index. -/
structure DecodeCfg (R : Type) where
  n : ℕ
  demands : ℕ → ℚ
  coords : ℕ → ℚ × ℚ
  split : R → R × R
  dec : R → ℕ → ℚ → (ℕ → Bool) → ℕ → ℚ
  det : Bool
  samp : R → (ℕ → WithBot ℚ) → ℕ
  lsm : (ℕ → WithBot ℚ) → ℕ → ℚ

/-- Per-element loop state of decode_greedy:
(rng, sequences, visited, capacities, log_probs). -/
structure LoopState (R : Type) where
  rng : R
  seq : ℕ → ℕ
  visited : ℕ → Bool
  cap : ℚ
  logp : ℚ

/-- Action selection: jnp.argmax when deterministic, the categorical
sampler otherwise. -/
def chosen {R : Type} (C : DecodeCfg R) (r : R) (f : ℕ → WithBot ℚ) : ℕ :=
  if C.det then argmaxIdx f C.n else C.samp r f

/-- The forbidden mask computed inside decode_iteration at loop index idx:
current_node is sequences[idx - 1]. -/
def stepMask {R : Type} (C : DecodeCfg R) (s : LoopState R) (idx : ℕ) : ℕ → Bool :=
  next_node_mask C.n C.demands s.visited s.cap (s.seq (idx - 1))

/-- The decoder's final logits at loop index idx: the pre-masking scores
with forbidden entries forced to -inf, i.e. jnp.where(mask, -inf, logits).
The dropout key is the second component of split(rng). -/
def stepML {R : Type} (C : DecodeCfg R) (s : LoopState R) (idx : ℕ) : ℕ → WithBot ℚ :=
  fun i =>
    if stepMask C s idx i then ⊥
    else ((C.dec (C.split s.rng).2 (s.seq (idx - 1)) s.cap (stepMask C s idx) i : ℚ) : WithBot ℚ)

/-- The node selected at loop index idx.  In the stochastic branch the
sampler consumes the second component of a further split. -/
def stepChosen {R : Type} (C : DecodeCfg R) (s : LoopState R) (idx : ℕ) : ℕ :=
  chosen C (if C.det then (C.split s.rng).1 else (C.split (C.split s.rng).1).2)
    (stepML C s idx)

/-- One transition of the fori_loop body decode_iteration, src/nn.py lines
274-325: compute the mask, call the decoder, select the next node, write it
into the route, mark it visited, update the remaining capacity (reset to 1
on a depot visit), and accumulate log_softmax(logits)[next]. -/
def decode_iteration {R : Type} (C : DecodeCfg R) (idx : ℕ) (s : LoopState R) :
    LoopState R :=
  { rng := if C.det then (C.split s.rng).1 else (C.split (C.split s.rng).1).1
    seq := Function.update s.seq idx (stepChosen C s idx)
    visited := Function.update s.visited (stepChosen C s idx) true
    cap := if stepChosen C s idx = 0 then 1 else s.cap - C.demands (stepChosen C s idx)
    logp := s.logp + C.lsm (stepML C s idx) (stepChosen C s idx) }

/-- The initial loop state of decode_greedy: route all depot, only the depot
visited, capacity 1, log-prob 0; the loop key is the carry component of the
initial split (the other component goes to the encoder). -/
def initState {R : Type} (C : DecodeCfg R) (r : R) : LoopState R :=
  { rng := (C.split r).1
    seq := fun _ => 0
    visited := fun i => decide (i = 0)
    cap := 1
    logp := 0 }

/-- The loop state after iterations 1..t of decode_iteration. -/
def stateAt {R : Type} (C : DecodeCfg R) (r : R) : ℕ → LoopState R
  | 0 => initState C r
  | t + 1 => decode_iteration C (t + 1) (stateAt C r t)

/-- decode_greedy: jax.lax.fori_loop(1, 2 * seq_len, decode_iteration, init),
i.e. the state after iterations 1, ..., 2n - 1. -/
def decode_greedy {R : Type} (C : DecodeCfg R) (r : R) : LoopState R :=
  stateAt C r (2 * C.n - 1)

/-- The forbidden mask computed during decode step t (t counts from 1). -/
def maskAt {R : Type} (C : DecodeCfg R) (r : R) (t : ℕ) : ℕ → Bool :=
  stepMask C (stateAt C r (t - 1)) t

/-- The length-2n route array produced by a decode run, as a list. -/
def routeList {R : Type} (C : DecodeCfg R) (r : R) : List ℕ :=
  (List.range (2 * C.n)).map (decode_greedy C r).seq

/-- Pairwise Euclidean distance matrix of get_cost, src/nn.py lines 338-342:
entry (i, j) is the norm of coords[i] - coords[j]. -/
noncomputable def distMatrix (coords : ℕ → ℚ × ℚ) (i j : ℕ) : ℝ :=
  Real.sqrt ((((coords i).1 : ℝ) - ((coords j).1 : ℝ)) ^ 2 +
    (((coords i).2 : ℝ) - ((coords j).2 : ℝ)) ^ 2)

/-- get_cost, src/nn.py lines 335-349: gather the distance matrix at the
consecutive pairs (route[:-1], route[1:]) and sum. -/
noncomputable def get_cost (coords : ℕ → ℚ × ℚ) (route : List ℕ) : ℝ :=
  ((route.zip route.tail).map (fun p => distMatrix coords p.1 p.2)).sum

/-- Modelled from the spec: the total Euclidean length of a route, summing
the straight-line distance between each consecutive pair of visited nodes.
Written independently of get_cost, for the refinement claim C8. -/
noncomputable def specRouteCost (coords : ℕ → ℚ × ℚ) (route : List ℕ) : ℝ :=
  ∑ i ∈ Finset.range (route.length - 1),
    Real.sqrt ((((coords (route.getD i 0)).1 : ℝ) - ((coords (route.getD (i + 1) 0)).1 : ℝ)) ^ 2 +
      (((coords (route.getD i 0)).2 : ℝ) - ((coords (route.getD (i + 1) 0)).2 : ℝ)) ^ 2)

/-- The outputs of AttentionModel.solve for one batch element:
(cost, log_probs, route). -/
noncomputable def solveModel {R : Type} (C : DecodeCfg R) (r : R) : ℝ × ℚ × List ℕ :=
  (get_cost C.coords (routeList C r), (decode_greedy C r).logp, routeList C r)

/-- The most negative finite float32, jnp.finfo(float32).min: the additive
mask value flax uses for masked-out attention scores. -/
noncomputable def flaxF32Min : ℝ := -(2 ^ 128 - 2 ^ 104)

/-- Scores entering the softmax of flax MultiHeadDotProductAttention under a
mask: positions whose mask value is TRUE are kept, positions whose mask
value is FALSE are replaced by the large negative constant.  (Flax docs:
"attention weights are masked out if their respective mask value is
False".) -/
noncomputable def attnMaskedScore (keep : ℕ → Bool) (s : ℕ → ℝ) (i : ℕ) : ℝ :=
  if keep i then s i else flaxF32Min

/-- The attention weight the flax MHA assigns to key position i among
positions 0..n-1: softmax of the masked scores. -/
noncomputable def attnWeight (keep : ℕ → Bool) (s : ℕ → ℝ) (n i : ℕ) : ℝ :=
  Real.exp (attnMaskedScore keep s i) /
    ∑ j ∈ Finset.range n, Real.exp (attnMaskedScore keep s j)

/-- The attention weights of the internal MHA of PointerDecoder, src/nn.py
lines 132-136: the call self.mha(Q1, node_embeddings, mask=mask[:, None,
None, :]) passes the FORBIDDEN mask (true = forbidden) directly as the flax
keep-mask (true = attend), so position i is kept exactly when it is
forbidden. -/
noncomputable def decoderGlimpseWeight (forbidden : ℕ → Bool) (s : ℕ → ℝ) (n i : ℕ) : ℝ :=
  attnWeight forbidden s n i

/-- The hypothesis on demands under which the loop invariants hold: depot
demand 0 and every node demand at most the normalized capacity 1. -/
def DemandsOK {R : Type} (C : DecodeCfg R) : Prop :=
  C.demands 0 = 0 ∧ ∀ i, i < C.n → C.demands i ≤ 1

/-- Specification of the action-selection collaborator: whenever some entry
of the masked logits is not -inf, the selected index is in range and is not
a -inf entry.  The deterministic argmax provably satisfies this
(chooseSpec_det); for the stochastic branch it is the defining property of
categorical sampling, since masked entries carry exactly zero probability
mass. -/
def ChooseSpec {R : Type} (C : DecodeCfg R) : Prop :=
  ∀ (r : R) (f : ℕ → WithBot ℚ),
    (∃ i, i < C.n ∧ f i ≠ ⊥) → chosen C r f < C.n ∧ f (chosen C r f) ≠ ⊥

/-- The per-step loop invariant, indexed by the time t of the state: the
capacity is nonnegative, the capacity is full whenever the vehicle sits at
the depot, the current node is visited, and the depot is visited. -/
def StepInv {R : Type} (C : DecodeCfg R) (s : LoopState R) (t : ℕ) : Prop :=
  0 ≤ s.cap ∧ (s.seq t = 0 → s.cap = 1) ∧ s.visited (s.seq t) = true ∧
    s.visited 0 = true

/-- Number of unvisited nodes among 0..n-1 (the depot is visited from the
start, so these are the unvisited customers). -/
def uCount {R : Type} (C : DecodeCfg R) (s : LoopState R) : ℕ :=
  ((Finset.range C.n).filter (fun i => s.visited i = false)).card

/-- The termination potential of the decode loop: twice the number of
unvisited customers, minus one when the vehicle sits at the depot. -/
def phi {R : Type} (C : DecodeCfg R) (r : R) (t : ℕ) : ℤ :=
  2 * (uCount C (stateAt C r t) : ℤ) -
    (if (stateAt C r t).seq t = 0 then 1 else 0)

/-- A concrete two-node instance (depot plus one customer of demand 1/2)
with a trivial PRNG and zero decoder scores, decoded greedily. -/
def cexCfg : DecodeCfg Unit :=
  { n := 2
    demands := fun i => if i = 1 then (1 : ℚ) / 2 else 0
    coords := fun _ => (0, 0)
    split := fun _ => ((), ())
    dec := fun _ _ _ _ _ => 0
    det := true
    samp := fun _ _ => 0
    lsm := fun _ _ => 0 }

/-- The coordinates of the concrete cost scenario: depot (0,0), customer A
(1,0), customer B (0,1). -/
def exCoords : ℕ → ℚ × ℚ :=
  fun i => if i = 1 then ((1 : ℚ), (0 : ℚ)) else if i = 2 then (0, 1) else (0, 0)

/-! ### Properties of argmaxIdx -/

theorem argmax_foldl_init_le (f : ℕ → WithBot ℚ) (l : List ℕ) (b : ℕ) :
    f b ≤ f (l.foldl (fun best i => if f best < f i then i else best) b) := by
  induction l generalizing b with
  | nil => exact le_refl _
  | cons a t ih =>
    have h1 : f b ≤ f (if f b < f a then a else b) := by
      by_cases h : f b < f a
      · rw [if_pos h]; exact le_of_lt h
      · rw [if_neg h]
    exact le_trans h1 (ih _)

theorem argmax_foldl_mem_le (f : ℕ → WithBot ℚ) (l : List ℕ) (b : ℕ) :
    ∀ i ∈ l, f i ≤ f (l.foldl (fun best i => if f best < f i then i else best) b) := by
  induction l generalizing b with
  | nil => intro i hi; cases hi
  | cons a t ih =>
    intro i hi
    rcases List.mem_cons.mp hi with h | h
    · subst h
      have h1 : f i ≤ f (if f b < f i then i else b) := by
        by_cases h : f b < f i
        · rw [if_pos h]
        · rw [if_neg h]; exact le_of_not_lt h
      exact le_trans h1 (argmax_foldl_init_le f t _)
    · exact ih _ i h

theorem argmax_foldl_mem_or (f : ℕ → WithBot ℚ) (l : List ℕ) (b : ℕ) :
    l.foldl (fun best i => if f best < f i then i else best) b = b ∨
      l.foldl (fun best i => if f best < f i then i else best) b ∈ l := by
  induction l generalizing b with
  | nil => exact Or.inl rfl
  | cons a t ih =>
    have hstep : (a :: t).foldl (fun best i => if f best < f i then i else best) b
        = t.foldl (fun best i => if f best < f i then i else best)
            (if f b < f a then a else b) := rfl
    rcases ih (if f b < f a then a else b) with h | h
    · rw [hstep, h]
      by_cases hba : f b < f a
      · rw [if_pos hba]; exact Or.inr (List.mem_cons_self a t)
      · rw [if_neg hba]; exact Or.inl rfl
    · rw [hstep]; exact Or.inr (List.mem_cons_of_mem a h)

theorem argmaxIdx_lt (f : ℕ → WithBot ℚ) (n : ℕ) (hn : 0 < n) : argmaxIdx f n < n := by
  rcases argmax_foldl_mem_or f (List.range n) 0 with h | h
  · unfold argmaxIdx; rw [h]; exact hn
  · exact List.mem_range.mp h

theorem le_argmaxIdx (f : ℕ → WithBot ℚ) (n i : ℕ) (hi : i < n) :
    f i ≤ f (argmaxIdx f n) :=
  argmax_foldl_mem_le f (List.range n) 0 i (List.mem_range.mpr hi)

theorem chooseSpec_det {R : Type} (C : DecodeCfg R) (h : C.det = true) :
    ChooseSpec C := by
  intro r f hex
  obtain ⟨i, hi, hfi⟩ := hex
  have hn : 0 < C.n := lt_of_le_of_lt (Nat.zero_le i) hi
  unfold chosen
  rw [h, if_pos rfl]
  refine ⟨argmaxIdx_lt f C.n hn, ?_⟩
  have h1 : f i ≤ f (argmaxIdx f C.n) := le_argmaxIdx f C.n i hi
  have h2 : (⊥ : WithBot ℚ) < f i := bot_lt_iff_ne_bot.mpr hfi
  exact bot_lt_iff_ne_bot.mp (lt_of_lt_of_le h2 h1)

/-! ### Properties of the next-node mask -/

theorem allCustomersVisited_eq_true_iff (n : ℕ) (v : ℕ → Bool) :
    allCustomersVisited n v = true ↔ ∀ j, j < n → j ≠ 0 → v j = true := by
  unfold allCustomersVisited
  rw [List.all_eq_true]
  constructor
  · intro h j hj hj0
    have := h j (List.mem_range.mpr hj)
    simp only [customer_mask, Bool.or_eq_true, Bool.not_eq_true',
      decide_eq_false_iff_not, not_not] at this
    rcases this with h' | h'
    · exact h'
    · exact absurd h' hj0
  · intro h i hi
    simp only [customer_mask, Bool.or_eq_true, Bool.not_eq_true', decide_eq_false_iff_not,
      not_not]
    by_cases hi0 : i = 0
    · exact Or.inr hi0
    · exact Or.inl (h i (List.mem_range.mp hi) hi0)

theorem allCustomersVisited_eq_false (n : ℕ) (v : ℕ → Bool) (j : ℕ)
    (hj : j < n) (hj0 : j ≠ 0) (hjv : v j = false) :
    allCustomersVisited n v = false := by
  by_contra h
  have h' : allCustomersVisited n v = true := by
    cases hh : allCustomersVisited n v
    · exact absurd hh h
    · rfl
  have := (allCustomersVisited_eq_true_iff n v).mp h' j hj hj0
  rw [hjv] at this
  exact Bool.false_ne_true this

theorem allCustomersVisited_false_elim (n : ℕ) (v : ℕ → Bool)
    (h : allCustomersVisited n v = false) :
    ∃ j, j < n ∧ j ≠ 0 ∧ v j = false := by
  by_contra hc
  push_neg at hc
  have : allCustomersVisited n v = true := by
    rw [allCustomersVisited_eq_true_iff]
    intro j hj hj0
    rcases Bool.eq_false_or_eq_true (v j) with hv | hv
    · exact hv
    · exact absurd hv (hc j hj hj0)
  simp [this] at h

theorem next_node_mask_zero_eq (n : ℕ) (d : ℕ → ℚ) (v : ℕ → Bool) (cap : ℚ) (cur : ℕ) :
    next_node_mask n d v cap cur 0 =
      (!(allCustomersVisited n v) && (decide (cur = 0) || decide (cap < d 0))) := by
  unfold next_node_mask
  rw [Function.update_same]
  congr 1
  rw [Function.update_apply]
  by_cases hc : cur = 0
  · simp [hc]
  · have h0 : ¬ ((0 : ℕ) = cur) := fun h => hc h.symm
    rw [if_neg h0]
    simp [baseMask, customer_mask, hc]

theorem next_node_mask_of_ne_zero (n : ℕ) (d : ℕ → ℚ) (v : ℕ → Bool) (cap : ℚ)
    (cur i : ℕ) (hi : i ≠ 0) :
    next_node_mask n d v cap cur i =
      Function.update (baseMask d v cap) cur true i := by
  unfold next_node_mask
  exact Function.update_noteq hi _ _

theorem mask_false_facts (n : ℕ) (d : ℕ → ℚ) (v : ℕ → Bool) (cap : ℚ) (cur i : ℕ)
    (hi : i ≠ 0) (hm : next_node_mask n d v cap cur i = false) :
    i ≠ cur ∧ v i = false ∧ d i ≤ cap := by
  rw [next_node_mask_of_ne_zero n d v cap cur i hi, Function.update_apply] at hm
  by_cases hic : i = cur
  · rw [if_pos hic] at hm; exact absurd hm (by simp)
  · rw [if_neg hic] at hm
    unfold baseMask at hm
    simp only [Bool.or_eq_false_iff, Bool.and_eq_false_iff, decide_eq_false_iff_not,
      not_lt] at hm
    refine ⟨hic, ?_, hm.2⟩
    rcases hm.1 with h | h
    · exact h
    · exact absurd h (by simp [customer_mask, hi])

theorem mask_false_demand_le (n : ℕ) (d : ℕ → ℚ) (v : ℕ → Bool) (cap : ℚ) (cur i : ℕ)
    (hd0 : d 0 = 0) (hcap : 0 ≤ cap)
    (hm : next_node_mask n d v cap cur i = false) : d i ≤ cap := by
  by_cases hi : i = 0
  · rw [hi, hd0]; exact hcap
  · exact (mask_false_facts n d v cap cur i hi hm).2.2

theorem exists_unmasked (n : ℕ) (d : ℕ → ℚ) (v : ℕ → Bool) (cap : ℚ) (cur : ℕ)
    (hn : 0 < n) (hd0 : d 0 = 0) (hd1 : ∀ i, i < n → d i ≤ 1)
    (hcap : 0 ≤ cap) (hdep : cur = 0 → cap = 1) :
    ∃ i, i < n ∧ next_node_mask n d v cap cur i = false := by
  by_cases hall : allCustomersVisited n v = true
  · exact ⟨0, hn, by rw [next_node_mask_zero_eq]; simp [hall]⟩
  · have hall' : allCustomersVisited n v = false := by
      cases hh : allCustomersVisited n v
      · rfl
      · exact absurd hh hall
    obtain ⟨j, hj, hj0, hjv⟩ := allCustomersVisited_false_elim n v hall'
    by_cases hcur : cur = 0
    · refine ⟨j, hj, ?_⟩
      rw [next_node_mask_of_ne_zero n d v cap cur j hj0, Function.update_apply]
      have hjc : ¬ (j = cur) := by rw [hcur]; exact hj0
      rw [if_neg hjc]
      have hcap1 : cap = 1 := hdep hcur
      have : ¬ (cap < d j) := by rw [hcap1]; exact not_lt.mpr (hd1 j hj)
      simp [baseMask, hjv, this]
    · refine ⟨0, hn, ?_⟩
      rw [next_node_mask_zero_eq]
      have h1 : ¬ (cap < d 0) := by rw [hd0]; exact not_lt.mpr hcap
      simp [hcur, h1]

/-! ### Step-level lemmas and the loop invariant -/

theorem stepMask_succ {R : Type} (C : DecodeCfg R) (s : LoopState R) (t : ℕ) :
    stepMask C s (t + 1) = next_node_mask C.n C.demands s.visited s.cap (s.seq t) := by
  unfold stepMask
  rw [Nat.add_sub_cancel]

theorem exists_unmasked_step {R : Type} (C : DecodeCfg R) (s : LoopState R) (t : ℕ)
    (hd : DemandsOK C) (hn : 0 < C.n) (hinv : StepInv C s t) :
    ∃ i, i < C.n ∧ stepMask C s (t + 1) i = false := by
  rw [stepMask_succ]
  exact exists_unmasked C.n C.demands s.visited s.cap (s.seq t)
    hn hd.1 hd.2 hinv.1 hinv.2.1

theorem stepML_ne_bot {R : Type} (C : DecodeCfg R) (s : LoopState R) (idx i : ℕ)
    (h : stepMask C s idx i = false) : stepML C s idx i ≠ ⊥ := by
  unfold stepML
  rw [h]
  simp

theorem stepMask_of_ml_ne_bot {R : Type} (C : DecodeCfg R) (s : LoopState R) (idx i : ℕ)
    (h : stepML C s idx i ≠ ⊥) : stepMask C s idx i = false := by
  rcases Bool.eq_false_or_eq_true (stepMask C s idx i) with hm | hm
  · exact absurd (by unfold stepML; rw [hm]; simp : stepML C s idx i = ⊥) h
  · exact hm

theorem stepChosen_spec {R : Type} (C : DecodeCfg R) (s : LoopState R) (t : ℕ)
    (hd : DemandsOK C) (hn : 0 < C.n) (hc : ChooseSpec C) (hinv : StepInv C s t) :
    stepChosen C s (t + 1) < C.n ∧
      stepMask C s (t + 1) (stepChosen C s (t + 1)) = false := by
  obtain ⟨i, hi, hmi⟩ := exists_unmasked_step C s t hd hn hinv
  have hml : ∃ i, i < C.n ∧ stepML C s (t + 1) i ≠ ⊥ :=
    ⟨i, hi, stepML_ne_bot C s (t + 1) i hmi⟩
  have h := hc (if C.det then (C.split s.rng).1 else (C.split (C.split s.rng).1).2)
    (stepML C s (t + 1)) hml
  exact ⟨h.1, stepMask_of_ml_ne_bot C s (t + 1) _ h.2⟩

theorem stateAt_succ {R : Type} (C : DecodeCfg R) (r : R) (t : ℕ) :
    stateAt C r (t + 1) = decode_iteration C (t + 1) (stateAt C r t) := rfl

theorem stateAt_succ_seq_self {R : Type} (C : DecodeCfg R) (r : R) (t : ℕ) :
    (stateAt C r (t + 1)).seq (t + 1) = stepChosen C (stateAt C r t) (t + 1) := by
  rw [stateAt_succ]
  exact Function.update_same _ _ _

theorem inv_all {R : Type} (C : DecodeCfg R) (r : R)
    (hd : DemandsOK C) (hn : 0 < C.n) (hc : ChooseSpec C) :
    ∀ t, StepInv C (stateAt C r t) t := by
  intro t
  induction t with
  | zero =>
    refine ⟨?_, fun _ => rfl, ?_, ?_⟩
    · exact zero_le_one
    · rfl
    · rfl
  | succ t ih =>
    obtain ⟨hlt, hmf⟩ := stepChosen_spec C (stateAt C r t) t hd hn hc ih
    have hseq : (stateAt C r (t + 1)).seq (t + 1) = stepChosen C (stateAt C r t) (t + 1) :=
      stateAt_succ_seq_self C r t
    have hvis : (stateAt C r (t + 1)).visited =
        Function.update (stateAt C r t).visited (stepChosen C (stateAt C r t) (t + 1)) true :=
      rfl
    have hcap : (stateAt C r (t + 1)).cap =
        if stepChosen C (stateAt C r t) (t + 1) = 0 then 1
        else (stateAt C r t).cap - C.demands (stepChosen C (stateAt C r t) (t + 1)) := rfl
    by_cases hc0 : stepChosen C (stateAt C r t) (t + 1) = 0
    · refine ⟨?_, fun _ => ?_, ?_, ?_⟩
      · rw [hcap, if_pos hc0]; norm_num
      · rw [hcap, if_pos hc0]
      · rw [hseq, hvis]; exact Function.update_same _ _ _
      · rw [hvis, ← hc0]; exact Function.update_same _ _ _
    · have hfacts := mask_false_facts C.n C.demands (stateAt C r t).visited
        (stateAt C r t).cap ((stateAt C r t).seq t) _ hc0
        (by rw [← stepMask_succ]; exact hmf)
      refine ⟨?_, fun hz => ?_, ?_, ?_⟩
      · rw [hcap, if_neg hc0]
        exact sub_nonneg.mpr hfacts.2.2
      · rw [hseq] at hz; exact absurd hz hc0
      · rw [hseq, hvis]; exact Function.update_same _ _ _
      · rw [hvis]
        rw [Function.update_noteq (fun h => hc0 h.symm) _ _]
        exact ih.2.2.2

/-! ### Route-array stability across loop iterations -/

theorem seq_stable_succ {R : Type} (C : DecodeCfg R) (r : R) (t k : ℕ) (hk : k ≤ t) :
    (stateAt C r (t + 1)).seq k = (stateAt C r t).seq k := by
  rw [stateAt_succ]
  exact Function.update_noteq (by omega) _ _

theorem seq_stable {R : Type} (C : DecodeCfg R) (r : R) (t k t' : ℕ)
    (hk : k ≤ t) (ht : t ≤ t') : (stateAt C r t').seq k = (stateAt C r t).seq k := by
  induction t' with
  | zero =>
    have : t = 0 := by omega
    rw [this]
  | succ t' ih =>
    by_cases h : t ≤ t'
    · rw [seq_stable_succ C r t' k (by omega)]
      exact ih h
    · have : t = t' + 1 := by omega
      rw [this]

theorem seq_beyond_zero {R : Type} (C : DecodeCfg R) (r : R) (t k : ℕ) (hk : t < k) :
    (stateAt C r t).seq k = 0 := by
  induction t with
  | zero => rfl
  | succ t ih =>
    rw [stateAt_succ]
    show Function.update (stateAt C r t).seq (t + 1) _ k = 0
    rw [Function.update_noteq (by omega) _ _]
    exact ih (by omega)

theorem visited_imp_seq {R : Type} (C : DecodeCfg R) (r : R) :
    ∀ t j, (stateAt C r t).visited j = true →
      j = 0 ∨ ∃ s, s ≤ t ∧ (stateAt C r t).seq s = j := by
  intro t
  induction t with
  | zero =>
    intro j hj
    exact Or.inl (of_decide_eq_true hj)
  | succ t ih =>
    intro j hj
    have hvis : (stateAt C r (t + 1)).visited =
        Function.update (stateAt C r t).visited (stepChosen C (stateAt C r t) (t + 1)) true :=
      rfl
    by_cases hjc : j = stepChosen C (stateAt C r t) (t + 1)
    · refine Or.inr ⟨t + 1, le_refl _, ?_⟩
      rw [stateAt_succ_seq_self C r t, hjc]
    · rw [hvis, Function.update_noteq hjc _ _] at hj
      rcases ih j hj with h | ⟨s, hs, hseq⟩
      · exact Or.inl h
      · refine Or.inr ⟨s, by omega, ?_⟩
        rw [seq_stable_succ C r t s hs]
        exact hseq

/-! ### The running log-probability as a sum over steps -/

theorem logp_eq_sum {R : Type} (C : DecodeCfg R) (r : R) :
    ∀ T, (stateAt C r T).logp =
      ∑ t ∈ Finset.Icc 1 T,
        C.lsm (stepML C (stateAt C r (t - 1)) t) (stepChosen C (stateAt C r (t - 1)) t) := by
  intro T
  induction T with
  | zero =>
    rw [Finset.Icc_eq_empty (by omega), Finset.sum_empty]
    rfl
  | succ T ih =>
    rw [Finset.sum_Icc_succ_top (by omega)]
    have hstep : (stateAt C r (T + 1)).logp = (stateAt C r T).logp +
        C.lsm (stepML C (stateAt C r T) (T + 1)) (stepChosen C (stateAt C r T) (T + 1)) :=
      rfl
    rw [hstep, ih]
    simp only [Nat.add_sub_cancel]

theorem argmaxIdx_two (f : ℕ → WithBot ℚ) : argmaxIdx f 2 = if f 0 < f 1 then 1 else 0 := by
  show (List.range 2).foldl _ 0 = _
  rw [show List.range 2 = [0, 1] from rfl]
  show (if f (if f 0 < f 0 then 0 else 0) < f 1 then 1 else if f 0 < f 0 then 0 else 0) = _
  rw [if_neg (lt_irrefl _)]

theorem cex_all_false : allCustomersVisited 2 (fun i => decide (i = 0)) = false := rfl

theorem cex_mask1_zero : stepMask cexCfg (stateAt cexCfg () 0) 1 0 = true := by
  show next_node_mask 2 cexCfg.demands (fun i => decide (i = 0)) 1 0 0 = true
  rw [next_node_mask_zero_eq, cex_all_false]
  simp

theorem cex_mask1_one : stepMask cexCfg (stateAt cexCfg () 0) 1 1 = false := by
  show next_node_mask 2 cexCfg.demands (fun i => decide (i = 0)) 1 0 1 = false
  rw [next_node_mask_of_ne_zero _ _ _ _ _ _ (by omega), Function.update_noteq (by omega)]
  unfold baseMask customer_mask
  norm_num [cexCfg]

theorem cex_step1_chosen : stepChosen cexCfg (stateAt cexCfg () 0) 1 = 1 := by
  show chosen cexCfg _ (stepML cexCfg (stateAt cexCfg () 0) 1) = 1
  show argmaxIdx (stepML cexCfg (stateAt cexCfg () 0) 1) 2 = 1
  rw [argmaxIdx_two]
  rw [show stepML cexCfg (stateAt cexCfg () 0) 1 0 = ⊥ from by
    unfold stepML; rw [cex_mask1_zero]; rfl]
  rw [show stepML cexCfg (stateAt cexCfg () 0) 1 1 = ((0 : ℚ) : WithBot ℚ) from by
    unfold stepML; rw [cex_mask1_one]; rfl]
  rw [if_pos (WithBot.bot_lt_coe 0)]

theorem cex_s1_seq1 : (stateAt cexCfg () 1).seq 1 = 1 := by
  rw [show (1:ℕ) = 0 + 1 from rfl, stateAt_succ_seq_self]
  exact cex_step1_chosen

theorem cex_s1_seq0 : (stateAt cexCfg () 1).seq 0 = 0 := by
  show Function.update (stateAt cexCfg () 0).seq 1
    (stepChosen cexCfg (stateAt cexCfg () 0) 1) 0 = 0
  rw [Function.update_noteq (by omega)]
  rfl

theorem cex_s1_visited1 : (stateAt cexCfg () 1).visited 1 = true := by
  show Function.update (stateAt cexCfg () 0).visited (stepChosen cexCfg (stateAt cexCfg () 0) 1) true 1 = true
  rw [cex_step1_chosen]
  exact Function.update_same _ _ _

theorem cex_s1_visited0 : (stateAt cexCfg () 1).visited 0 = true := by
  show Function.update (stateAt cexCfg () 0).visited (stepChosen cexCfg (stateAt cexCfg () 0) 1) true 0 = true
  rw [cex_step1_chosen, Function.update_noteq (by omega)]
  rfl

theorem cex_all_s1 : allCustomersVisited 2 (stateAt cexCfg () 1).visited = true := by
  rw [allCustomersVisited_eq_true_iff]
  intro j hj hj0
  have : j = 1 := by omega
  rw [this]
  exact cex_s1_visited1

theorem cex_s1_cap : (stateAt cexCfg () 1).cap = 1 / 2 := by
  show (if stepChosen cexCfg (stateAt cexCfg () 0) 1 = 0 then 1
    else (stateAt cexCfg () 0).cap - cexCfg.demands (stepChosen cexCfg (stateAt cexCfg () 0) 1)) = 1 / 2
  rw [cex_step1_chosen, if_neg (by omega)]
  show (1 : ℚ) - cexCfg.demands 1 = 1 / 2
  norm_num [cexCfg]

theorem cex_mask2_zero : stepMask cexCfg (stateAt cexCfg () 1) 2 0 = false := by
  show next_node_mask 2 cexCfg.demands (stateAt cexCfg () 1).visited
    (stateAt cexCfg () 1).cap ((stateAt cexCfg () 1).seq 1) 0 = false
  rw [next_node_mask_zero_eq, cex_all_s1]
  rfl

theorem cex_mask2_one : stepMask cexCfg (stateAt cexCfg () 1) 2 1 = true := by
  show next_node_mask 2 cexCfg.demands (stateAt cexCfg () 1).visited
    (stateAt cexCfg () 1).cap ((stateAt cexCfg () 1).seq 1) 1 = true
  rw [next_node_mask_of_ne_zero _ _ _ _ _ _ (by omega), cex_s1_seq1,
    Function.update_same]

theorem cex_step2_chosen : stepChosen cexCfg (stateAt cexCfg () 1) 2 = 0 := by
  show argmaxIdx (stepML cexCfg (stateAt cexCfg () 1) 2) 2 = 0
  rw [argmaxIdx_two]
  rw [show stepML cexCfg (stateAt cexCfg () 1) 2 1 = ⊥ from by
    unfold stepML; rw [cex_mask2_one]; rfl]
  rw [if_neg not_lt_bot]

theorem cex_s2_seq2 : (stateAt cexCfg () 2).seq 2 = 0 := by
  rw [show (2:ℕ) = 1 + 1 from rfl, stateAt_succ_seq_self]
  exact cex_step2_chosen

theorem cex_s2_seq1 : (stateAt cexCfg () 2).seq 1 = 1 := by
  rw [seq_stable_succ cexCfg () 1 1 (le_refl 1)]
  exact cex_s1_seq1

theorem cex_s2_seq0 : (stateAt cexCfg () 2).seq 0 = 0 := by
  rw [seq_stable_succ cexCfg () 1 0 (by omega)]
  exact cex_s1_seq0

theorem cex_s2_visited1 : (stateAt cexCfg () 2).visited 1 = true := by
  show Function.update (stateAt cexCfg () 1).visited (stepChosen cexCfg (stateAt cexCfg () 1) 2) true 1 = true
  rw [cex_step2_chosen, Function.update_noteq (by omega)]
  exact cex_s1_visited1

theorem cex_all_s2 : allCustomersVisited 2 (stateAt cexCfg () 2).visited = true := by
  rw [allCustomersVisited_eq_true_iff]
  intro j hj hj0
  have : j = 1 := by omega
  rw [this]
  exact cex_s2_visited1

theorem cex_mask3_zero : stepMask cexCfg (stateAt cexCfg () 2) 3 0 = false := by
  show next_node_mask 2 cexCfg.demands (stateAt cexCfg () 2).visited
    (stateAt cexCfg () 2).cap ((stateAt cexCfg () 2).seq 2) 0 = false
  rw [next_node_mask_zero_eq, cex_all_s2]
  rfl

theorem cex_mask3_one : stepMask cexCfg (stateAt cexCfg () 2) 3 1 = true := by
  show next_node_mask 2 cexCfg.demands (stateAt cexCfg () 2).visited
    (stateAt cexCfg () 2).cap ((stateAt cexCfg () 2).seq 2) 1 = true
  rw [next_node_mask_of_ne_zero _ _ _ _ _ _ (by omega), cex_s2_seq2,
    Function.update_noteq (by omega)]
  unfold baseMask customer_mask
  rw [cex_s2_visited1]
  rfl

theorem cex_step3_chosen : stepChosen cexCfg (stateAt cexCfg () 2) 3 = 0 := by
  show argmaxIdx (stepML cexCfg (stateAt cexCfg () 2) 3) 2 = 0
  rw [argmaxIdx_two]
  rw [show stepML cexCfg (stateAt cexCfg () 2) 3 1 = ⊥ from by
    unfold stepML; rw [cex_mask3_one]; rfl]
  rw [if_neg not_lt_bot]

theorem cex_s3_seq3 : (stateAt cexCfg () 3).seq 3 = 0 := by
  rw [show (3:ℕ) = 2 + 1 from rfl, stateAt_succ_seq_self]
  exact cex_step3_chosen

theorem cex_s3_seq2 : (stateAt cexCfg () 3).seq 2 = 0 := by
  rw [seq_stable_succ cexCfg () 2 2 (le_refl 2)]
  exact cex_s2_seq2

theorem cex_s3_seq1 : (stateAt cexCfg () 3).seq 1 = 1 := by
  rw [seq_stable_succ cexCfg () 2 1 (by omega)]
  exact cex_s2_seq1

theorem cex_s3_seq0 : (stateAt cexCfg () 3).seq 0 = 0 := by
  rw [seq_stable_succ cexCfg () 2 0 (by omega)]
  exact cex_s2_seq0

theorem cex_demandsOK : DemandsOK cexCfg := by
  constructor
  · rfl
  · intro i hi
    show (if i = 1 then (1:ℚ)/2 else 0) ≤ 1
    by_cases h : i = 1 <;> simp [h] <;> norm_num

theorem cex_chooseSpec : ChooseSpec cexCfg := chooseSpec_det cexCfg rfl

/-! ### Claim C1 -/

/-- C1 counterexample.  The claim says the mask computed for node 0 is true
(forbidden) whenever the visited set covers all customers.  In the run of
cexCfg, after step 1 every customer is visited, yet the mask computed for
node 0 at step 2 is false (allowed): line 292-294 of src/nn.py force-ALLOW
the depot once all customers are visited. -/
theorem c1_counterexample :
    allCustomersVisited 2 (stateAt cexCfg () 1).visited = true ∧
      maskAt cexCfg () 2 0 = false :=
  ⟨cex_all_s1, cex_mask2_zero⟩

/-- C1 amended: the per-step mask computed for node 0 equals
(not all customers visited) AND (node 0 is the current node OR the depot
demand exceeds the remaining capacity).  In particular the depot is
force-ALLOWED (mask false) once every customer is visited, and while some
customer is unvisited it is forbidden exactly when the vehicle sits at the
depot or the depot demand exceeds the capacity. -/
theorem c1_depot_mask_amended (n : ℕ) (d : ℕ → ℚ) (v : ℕ → Bool) (cap : ℚ) (cur : ℕ) :
    next_node_mask n d v cap cur 0 =
      (!(allCustomersVisited n v) && (decide (cur = 0) || decide (cap < d 0))) :=
  next_node_mask_zero_eq n d v cap cur

/-! ### Claim C2 -/

/-- C2: for every instance whose demands are at most the capacity 1 with
depot demand 0, at every decode step the computed forbidden mask leaves at
least one node allowed. -/
theorem c2_mask_has_legal_action {R : Type} (C : DecodeCfg R) (r : R)
    (hd : DemandsOK C) (hn : 0 < C.n) (hc : ChooseSpec C) :
    ∀ t, 1 ≤ t → t ≤ 2 * C.n - 1 → ∃ i, i < C.n ∧ maskAt C r t i = false := by
  intro t ht _
  obtain ⟨m, rfl⟩ : ∃ m, t = m + 1 := ⟨t - 1, by omega⟩
  have h := exists_unmasked_step C (stateAt C r m) m hd hn (inv_all C r hd hn hc m)
  unfold maskAt
  rw [Nat.add_sub_cancel]
  exact h

/-- Witness for C2 at the concrete two-node instance, step 1. -/
theorem c2_witness :
    DemandsOK cexCfg ∧ 0 < cexCfg.n ∧
      (∃ i, i < cexCfg.n ∧ maskAt cexCfg () 1 i = false) :=
  ⟨cex_demandsOK, by decide,
    c2_mask_has_legal_action cexCfg () cex_demandsOK (by decide) cex_chooseSpec
      1 (le_refl 1) (by decide)⟩

/-! ### Claim C10 -/

/-- C10: with all demands in the interval 0..1 and depot demand 0, the
remaining capacity starts at 1 and stays in 0..1 after every decode step. -/
theorem c10_capacity_bounds {R : Type} (C : DecodeCfg R) (r : R)
    (hd : DemandsOK C) (hnn : ∀ i, i < C.n → 0 ≤ C.demands i)
    (hn : 0 < C.n) (hc : ChooseSpec C) :
    (stateAt C r 0).cap = 1 ∧
      ∀ t, 0 ≤ (stateAt C r t).cap ∧ (stateAt C r t).cap ≤ 1 := by
  refine ⟨rfl, ?_⟩
  intro t
  induction t with
  | zero => exact ⟨zero_le_one, le_refl 1⟩
  | succ t ih =>
    refine ⟨(inv_all C r hd hn hc (t + 1)).1, ?_⟩
    have hcs := stepChosen_spec C (stateAt C r t) t hd hn hc (inv_all C r hd hn hc t)
    have hcap : (stateAt C r (t + 1)).cap =
        if stepChosen C (stateAt C r t) (t + 1) = 0 then 1
        else (stateAt C r t).cap - C.demands (stepChosen C (stateAt C r t) (t + 1)) := rfl
    rw [hcap]
    by_cases hc0 : stepChosen C (stateAt C r t) (t + 1) = 0
    · rw [if_pos hc0]
    · rw [if_neg hc0]
      have h0 : 0 ≤ C.demands (stepChosen C (stateAt C r t) (t + 1)) := hnn _ hcs.1
      linarith [ih.2]

/-- Witness for C10 at the concrete two-node instance, evaluated after
step 1. -/
theorem c10_witness :
    DemandsOK cexCfg ∧
      0 ≤ (stateAt cexCfg () 1).cap ∧ (stateAt cexCfg () 1).cap ≤ 1 :=
  ⟨cex_demandsOK,
    ((c10_capacity_bounds cexCfg () cex_demandsOK
      (by intro i hi; show 0 ≤ (if i = 1 then (1:ℚ)/2 else 0); split <;> norm_num)
      (by decide) cex_chooseSpec).2 1)⟩

/-! ### Claim C7 -/

/-- C7: the returned log_probs value equals the sum, over decode steps
t = 1 .. 2n-1, of log_softmax of that step's (masked) logit vector
evaluated at the node written into the route at position t. -/
theorem c7_logprob_sum {R : Type} (C : DecodeCfg R) (r : R) :
    (decode_greedy C r).logp =
      ∑ t ∈ Finset.Icc 1 (2 * C.n - 1),
        C.lsm (stepML C (stateAt C r (t - 1)) t) ((decode_greedy C r).seq t) := by
  unfold decode_greedy
  rw [logp_eq_sum]
  apply Finset.sum_congr rfl
  intro t ht
  rw [Finset.mem_Icc] at ht
  congr 1
  rw [seq_stable C r t t (2 * C.n - 1) (le_refl t) ht.2]
  obtain ⟨m, rfl⟩ : ∃ m, t = m + 1 := ⟨t - 1, by omega⟩
  rw [stateAt_succ_seq_self]
  rw [Nat.add_sub_cancel]

/-! ### Claim C5 -/

/-- C5 counterexample.  The claim says the entry written at route position t
is never equal to the entry at position t-1.  In the greedy run of cexCfg
(demands 0 and 1/2), both customers are served by step 2 and the vehicle
then stays at the depot: positions 2 and 3 of the route both hold 0. -/
theorem c5_counterexample :
    (decode_greedy cexCfg ()).seq 3 = 0 ∧ (decode_greedy cexCfg ()).seq 2 = 0 :=
  ⟨cex_s3_seq3, cex_s3_seq2⟩

/-- C5 amended: the chosen node differs from the previously occupied node at
every step at which some customer is still unvisited or the vehicle is away
from the depot; once all customers are visited and the vehicle sits at the
depot, the depot is chosen again (cost-neutral padding), so consecutive
equal route entries do occur there. -/
theorem c5_no_self_loop_amended {R : Type} (C : DecodeCfg R) (r : R)
    (hd : DemandsOK C) (hn : 0 < C.n) (hc : ChooseSpec C) :
    ∀ t, ((∃ j, j < C.n ∧ j ≠ 0 ∧ (stateAt C r t).visited j = false) ∨
        (stateAt C r t).seq t ≠ 0) →
      (stateAt C r (t + 1)).seq (t + 1) ≠ (stateAt C r t).seq t := by
  intro t hcase
  have hinv := inv_all C r hd hn hc t
  have hcs := stepChosen_spec C (stateAt C r t) t hd hn hc hinv
  rw [stateAt_succ_seq_self]
  intro hEq
  by_cases hcur : (stateAt C r t).seq t = 0
  · rcases hcase with ⟨j, hj, hj0, hjv⟩ | h0
    · have hall : allCustomersVisited C.n (stateAt C r t).visited = false :=
        allCustomersVisited_eq_false _ _ j hj hj0 hjv
      have hm0 : stepMask C (stateAt C r t) (t + 1) 0 = true := by
        rw [stepMask_succ, next_node_mask_zero_eq, hall, hcur]
        simp
      have hfalse := hcs.2
      rw [hEq, hcur] at hfalse
      rw [hm0] at hfalse
      simp at hfalse
    · exact h0 hcur
  · have hmc : stepMask C (stateAt C r t) (t + 1) ((stateAt C r t).seq t) = true := by
      rw [stepMask_succ, next_node_mask_of_ne_zero _ _ _ _ _ _ hcur]
      exact Function.update_same _ _ _
    have hfalse := hcs.2
    rw [hEq] at hfalse
    rw [hmc] at hfalse
    simp at hfalse

/-- Witness for the amended C5 at the concrete instance: at step 1 the
customer is still unvisited and the step moves off the depot. -/
theorem c5_witness :
    DemandsOK cexCfg ∧ (stateAt cexCfg () 1).seq 1 ≠ (stateAt cexCfg () 0).seq 0 :=
  ⟨cex_demandsOK,
    c5_no_self_loop_amended cexCfg () cex_demandsOK (by decide) cex_chooseSpec 0
      (Or.inl ⟨1, by decide, by decide, by decide⟩)⟩

/-! ### Claim C3 -/

/-- C3: with demands in 0..1 and depot demand 0, the sum of the demands of
the nodes visited strictly between two consecutive depot occurrences of the
produced route never exceeds the capacity 1. -/
theorem c3_capacity_feasibility {R : Type} (C : DecodeCfg R) (r : R)
    (hd : DemandsOK C) (hnn : ∀ i, i < C.n → 0 ≤ C.demands i)
    (hn : 0 < C.n) (hc : ChooseSpec C) :
    ∀ i j, i < j → j < 2 * C.n →
      (decode_greedy C r).seq i = 0 → (decode_greedy C r).seq j = 0 →
      (∀ k, i < k → k < j → (decode_greedy C r).seq k ≠ 0) →
      ∑ k ∈ Finset.Ioo i j, C.demands ((decode_greedy C r).seq k) ≤ 1 := by
  intro i j hij hj hi0 hj0 hmid
  have key : ∀ m, i + m ≤ j - 1 →
      (stateAt C r (i + m)).cap =
        1 - ∑ k ∈ Finset.Ioc i (i + m), C.demands ((decode_greedy C r).seq k) := by
    intro m
    induction m with
    | zero =>
      intro _
      rw [Nat.add_zero, Finset.Ioc_self, Finset.sum_empty]
      have hseqi : (stateAt C r i).seq i = 0 := by
        rw [← seq_stable C r i i (2 * C.n - 1) (le_refl i) (by omega)]
        exact hi0
      rw [(inv_all C r hd hn hc i).2.1 hseqi]
      norm_num
    | succ m ih =>
      intro hm
      have ihv := ih (by omega)
      have hstep_lt : i + m + 1 ≤ 2 * C.n - 1 := by omega
      have hroute : (decode_greedy C r).seq (i + m + 1) =
          stepChosen C (stateAt C r (i + m)) (i + m + 1) := by
        unfold decode_greedy
        rw [seq_stable C r (i + m + 1) (i + m + 1) (2 * C.n - 1) (le_refl _) hstep_lt,
          stateAt_succ_seq_self]
      have hne : (decode_greedy C r).seq (i + m + 1) ≠ 0 :=
        hmid (i + m + 1) (by omega) (by omega)
      have hcne : stepChosen C (stateAt C r (i + m)) (i + m + 1) ≠ 0 := by
        rw [← hroute]
        exact hne
      have hcap : (stateAt C r (i + m + 1)).cap =
          (stateAt C r (i + m)).cap - C.demands ((decode_greedy C r).seq (i + m + 1)) := by
        show (if stepChosen C (stateAt C r (i + m)) (i + m + 1) = 0 then 1
          else (stateAt C r (i + m)).cap -
            C.demands (stepChosen C (stateAt C r (i + m)) (i + m + 1))) = _
        rw [if_neg hcne, hroute]
      rw [show i + (m + 1) = i + m + 1 by omega]
      rw [hcap, ihv, Finset.sum_Ioc_succ_top (by omega : i ≤ i + m)]
      ring
  have hfin := key (j - 1 - i) (by omega)
  rw [show i + (j - 1 - i) = j - 1 by omega] at hfin
  have hpos := (inv_all C r hd hn hc (j - 1)).1
  rw [hfin] at hpos
  have hset : Finset.Ioc i (j - 1) = Finset.Ioo i j := by
    ext k
    simp only [Finset.mem_Ioc, Finset.mem_Ioo]
    omega
  rw [hset] at hpos
  linarith

/-- Witness for C3 at the concrete instance: route [0, 1, 0, 0], segment
between the consecutive depot visits at positions 0 and 2. -/
theorem c3_witness :
    DemandsOK cexCfg ∧
      ∑ k ∈ Finset.Ioo 0 2, cexCfg.demands ((decode_greedy cexCfg ()).seq k) ≤ 1 :=
  ⟨cex_demandsOK,
    c3_capacity_feasibility cexCfg () cex_demandsOK
      (by intro i hi; show 0 ≤ (if i = 1 then (1:ℚ)/2 else 0); split <;> norm_num)
      (by decide) cex_chooseSpec 0 2 (by omega) (by decide) cex_s3_seq0 cex_s3_seq2
      (by
        intro k hk1 hk2
        have hk : k = 1 := by omega
        rw [hk]
        show (stateAt cexCfg () 3).seq 1 ≠ 0
        rw [cex_s3_seq1]
        omega)⟩

/-! ### Claim C4: the termination potential -/

theorem unvisited_member {R : Type} (C : DecodeCfg R) (s : LoopState R)
    (hu : 1 ≤ uCount C s) (h0 : s.visited 0 = true) :
    ∃ j, j < C.n ∧ j ≠ 0 ∧ s.visited j = false := by
  obtain ⟨j, hj⟩ := Finset.card_pos.mp hu
  have hm := Finset.mem_filter.mp hj
  refine ⟨j, Finset.mem_range.mp hm.1, ?_, hm.2⟩
  intro hj0
  have h2 := hm.2
  rw [hj0, h0] at h2
  simp at h2

theorem filter_update_erase (n c : ℕ) (v : ℕ → Bool) :
    ((Finset.range n).filter (fun i => Function.update v c true i = false))
      = ((Finset.range n).filter (fun i => v i = false)).erase c := by
  ext i
  simp only [Finset.mem_filter, Finset.mem_erase, Finset.mem_range, Function.update_apply]
  by_cases hi : i = c
  · simp [hi]
  · simp [hi]

theorem phi_step {R : Type} (C : DecodeCfg R) (r : R)
    (hd : DemandsOK C) (hn : 0 < C.n) (hc : ChooseSpec C) (t : ℕ)
    (hu : 1 ≤ uCount C (stateAt C r t)) :
    phi C r (t + 1) ≤ phi C r t - 1 := by
  have hinv := inv_all C r hd hn hc t
  have hcs := stepChosen_spec C (stateAt C r t) t hd hn hc hinv
  have hseq1 : (stateAt C r (t + 1)).seq (t + 1) =
      stepChosen C (stateAt C r t) (t + 1) := stateAt_succ_seq_self C r t
  have hvis1 : (stateAt C r (t + 1)).visited =
      Function.update (stateAt C r t).visited (stepChosen C (stateAt C r t) (t + 1)) true :=
    rfl
  by_cases hc0 : stepChosen C (stateAt C r t) (t + 1) = 0
  · have hveq : Function.update (stateAt C r t).visited
        (stepChosen C (stateAt C r t) (t + 1)) true = (stateAt C r t).visited := by
      funext i
      rw [Function.update_apply]
      by_cases hi : i = stepChosen C (stateAt C r t) (t + 1)
      · rw [if_pos hi, hi, hc0]
        exact (hinv.2.2.2).symm
      · rw [if_neg hi]
    have hucount : uCount C (stateAt C r (t + 1)) = uCount C (stateAt C r t) := by
      unfold uCount
      rw [hvis1, hveq]
    have hcur : (stateAt C r t).seq t ≠ 0 := by
      intro hz
      obtain ⟨j, hj, hj0, hjv⟩ := unvisited_member C (stateAt C r t) hu hinv.2.2.2
      have hall := allCustomersVisited_eq_false C.n (stateAt C r t).visited j hj hj0 hjv
      have hm0 : stepMask C (stateAt C r t) (t + 1) 0 = true := by
        rw [stepMask_succ, next_node_mask_zero_eq, hall, hz]
        simp
      have hfalse := hcs.2
      rw [hc0, hm0] at hfalse
      simp at hfalse
    unfold phi
    rw [hucount, hseq1, if_pos hc0, if_neg hcur]
    omega
  · have hfacts := mask_false_facts C.n C.demands (stateAt C r t).visited
      (stateAt C r t).cap ((stateAt C r t).seq t) _ hc0
      (by rw [← stepMask_succ]; exact hcs.2)
    have herase := filter_update_erase C.n (stepChosen C (stateAt C r t) (t + 1))
      (stateAt C r t).visited
    have hmem : stepChosen C (stateAt C r t) (t + 1) ∈
        (Finset.range C.n).filter (fun i => (stateAt C r t).visited i = false) :=
      Finset.mem_filter.mpr ⟨Finset.mem_range.mpr hcs.1, hfacts.2.1⟩
    have hucount : uCount C (stateAt C r (t + 1)) = uCount C (stateAt C r t) - 1 := by
      unfold uCount
      rw [hvis1, herase, Finset.card_erase_of_mem hmem]
    unfold phi
    rw [hucount, hseq1, if_neg hc0]
    have hup : 1 ≤ uCount C (stateAt C r t) := hu
    by_cases hcur : (stateAt C r t).seq t = 0
    · rw [if_pos hcur]
      omega
    · rw [if_neg hcur]
      omega

theorem phi_descent {R : Type} (C : DecodeCfg R) (r : R)
    (hd : DemandsOK C) (hn : 0 < C.n) (hc : ChooseSpec C) :
    ∀ K, (∀ t, t < K → 1 ≤ uCount C (stateAt C r t)) →
      phi C r K ≤ phi C r 0 - K := by
  intro K
  induction K with
  | zero => intro _; simp
  | succ K ih =>
    intro h
    have h1 := phi_step C r hd hn hc K (h K (by omega))
    have h2 := ih (fun t ht => h t (by omega))
    push_cast
    push_cast at h2
    omega

theorem uCount_init {R : Type} (C : DecodeCfg R) (r : R) (hn : 0 < C.n) :
    uCount C (stateAt C r 0) = C.n - 1 := by
  unfold uCount
  have hfe : ((Finset.range C.n).filter (fun i => (stateAt C r 0).visited i = false))
      = (Finset.range C.n).erase 0 := by
    ext i
    simp only [Finset.mem_filter, Finset.mem_erase, Finset.mem_range]
    constructor
    · intro ⟨h1, h2⟩
      refine ⟨?_, h1⟩
      intro hi0
      rw [hi0] at h2
      simp [stateAt, initState] at h2
    · intro ⟨h1, h2⟩
      refine ⟨h2, ?_⟩
      show decide (i = 0) = false
      simp [h1]
  rw [hfe, Finset.card_erase_of_mem (Finset.mem_range.mpr hn), Finset.card_range]

theorem phi_start {R : Type} (C : DecodeCfg R) (r : R) (hn : 0 < C.n) :
    phi C r 0 = 2 * ((C.n : ℤ) - 1) - 1 := by
  unfold phi
  rw [uCount_init C r hn, if_pos (show (stateAt C r 0).seq 0 = 0 from rfl)]
  have : ((C.n - 1 : ℕ) : ℤ) = (C.n : ℤ) - 1 := by
    omega
  rw [this]

theorem phi_lower {R : Type} (C : DecodeCfg R) (r : R) (t : ℕ) :
    -1 ≤ phi C r t := by
  unfold phi
  by_cases h : (stateAt C r t).seq t = 0
  · rw [if_pos h]; omega
  · rw [if_neg h]; omega

theorem uCount_eventually_zero {R : Type} (C : DecodeCfg R) (r : R)
    (hd : DemandsOK C) (hn : 0 < C.n) (hc : ChooseSpec C) :
    ∃ t, t ≤ 2 * C.n - 1 ∧ uCount C (stateAt C r t) = 0 := by
  by_contra hcon
  push_neg at hcon
  have hdesc := phi_descent C r hd hn hc (2 * C.n - 1)
    (fun t ht => Nat.one_le_iff_ne_zero.mpr (hcon t (by omega)))
  have hlow := phi_lower C r (2 * C.n - 1)
  rw [phi_start C r hn] at hdesc
  omega

theorem uCount_zero_all_visited {R : Type} (C : DecodeCfg R) (s : LoopState R)
    (hu : uCount C s = 0) : ∀ j, j < C.n → s.visited j = true := by
  intro j hj
  rcases Bool.eq_false_or_eq_true (s.visited j) with hv | hv
  · exact hv
  · exfalso
    have hmem : j ∈ (Finset.range C.n).filter (fun i => s.visited i = false) :=
      Finset.mem_filter.mpr ⟨Finset.mem_range.mpr hj, hv⟩
    unfold uCount at hu
    rw [Finset.card_eq_zero] at hu
    rw [hu] at hmem
    exact Finset.not_mem_empty j hmem

/-- C4: with demands in 0..1 and depot demand 0, every customer index
appears somewhere in the length-2n route produced by the decode loop. -/
theorem c4_visitation_complete {R : Type} (C : DecodeCfg R) (r : R)
    (hd : DemandsOK C) (hnn : ∀ i, i < C.n → 0 ≤ C.demands i)
    (hn : 0 < C.n) (hc : ChooseSpec C) :
    ∀ j, 1 ≤ j → j < C.n → ∃ t, t < 2 * C.n ∧ (decode_greedy C r).seq t = j := by
  intro j hj1 hjn
  obtain ⟨t0, ht0, hu0⟩ := uCount_eventually_zero C r hd hn hc
  have hvis : (stateAt C r t0).visited j = true :=
    uCount_zero_all_visited C (stateAt C r t0) hu0 j hjn
  rcases visited_imp_seq C r t0 j hvis with h0 | ⟨s, hs, hseq⟩
  · omega
  · refine ⟨s, by omega, ?_⟩
    unfold decode_greedy
    rw [seq_stable C r t0 s (2 * C.n - 1) hs ht0]
    exact hseq

/-- Witness for C4 at the concrete instance: customer 1 appears in the
route. -/
theorem c4_witness :
    DemandsOK cexCfg ∧
      ∃ t, t < 2 * cexCfg.n ∧ (decode_greedy cexCfg ()).seq t = 1 :=
  ⟨cex_demandsOK,
    c4_visitation_complete cexCfg () cex_demandsOK
      (by intro i hi; show 0 ≤ (if i = 1 then (1:ℚ)/2 else 0); split <;> norm_num)
      (by decide) cex_chooseSpec 1 (le_refl 1) (by decide)⟩

/-! ### Claim C6 -/

theorem det_state_eq {R : Type} (C : DecodeCfg R) (hdet : C.det = true)
    (hdec : ∀ (r₁ r₂ : R) (cur : ℕ) (cap : ℚ) (m : ℕ → Bool),
      C.dec r₁ cur cap m = C.dec r₂ cur cap m) (r₁ r₂ : R) :
    ∀ t, (stateAt C r₁ t).seq = (stateAt C r₂ t).seq ∧
      (stateAt C r₁ t).visited = (stateAt C r₂ t).visited ∧
      (stateAt C r₁ t).cap = (stateAt C r₂ t).cap ∧
      (stateAt C r₁ t).logp = (stateAt C r₂ t).logp := by
  intro t
  induction t with
  | zero => exact ⟨rfl, rfl, rfl, rfl⟩
  | succ t ih =>
    obtain ⟨hs, hv, hcap, hl⟩ := ih
    have hmask : stepMask C (stateAt C r₁ t) (t + 1) = stepMask C (stateAt C r₂ t) (t + 1) := by
      unfold stepMask
      rw [hs, hv, hcap]
    have hml : stepML C (stateAt C r₁ t) (t + 1) = stepML C (stateAt C r₂ t) (t + 1) := by
      funext i
      unfold stepML
      rw [hmask, hs, hcap]
      rw [hdec (C.split (stateAt C r₁ t).rng).2 (C.split (stateAt C r₂ t).rng).2
        ((stateAt C r₂ t).seq (t + 1 - 1)) (stateAt C r₂ t).cap
        (stepMask C (stateAt C r₂ t) (t + 1))]
    have hch : stepChosen C (stateAt C r₁ t) (t + 1) = stepChosen C (stateAt C r₂ t) (t + 1) := by
      unfold stepChosen chosen
      rw [hdet, hml]
      simp
    refine ⟨?_, ?_, ?_, ?_⟩
    · show Function.update (stateAt C r₁ t).seq (t + 1)
        (stepChosen C (stateAt C r₁ t) (t + 1)) = Function.update (stateAt C r₂ t).seq (t + 1)
        (stepChosen C (stateAt C r₂ t) (t + 1))
      rw [hs, hch]
    · show Function.update (stateAt C r₁ t).visited
        (stepChosen C (stateAt C r₁ t) (t + 1)) true = Function.update (stateAt C r₂ t).visited
        (stepChosen C (stateAt C r₂ t) (t + 1)) true
      rw [hv, hch]
    · show (if stepChosen C (stateAt C r₁ t) (t + 1) = 0 then (1 : ℚ)
        else (stateAt C r₁ t).cap - C.demands (stepChosen C (stateAt C r₁ t) (t + 1))) =
        (if stepChosen C (stateAt C r₂ t) (t + 1) = 0 then (1 : ℚ)
        else (stateAt C r₂ t).cap - C.demands (stepChosen C (stateAt C r₂ t) (t + 1)))
      rw [hcap, hch]
    · show (stateAt C r₁ t).logp +
        C.lsm (stepML C (stateAt C r₁ t) (t + 1)) (stepChosen C (stateAt C r₁ t) (t + 1)) =
        (stateAt C r₂ t).logp +
        C.lsm (stepML C (stateAt C r₂ t) (t + 1)) (stepChosen C (stateAt C r₂ t) (t + 1))
      rw [hl, hml, hch]

/-- C6: with deterministic=true, solve is a deterministic function of
(parameters, problem): the seed does not influence the route, the log-prob
or the cost.  The hypothesis on dec embeds the flax semantics of
deterministic=true: dropout is disabled, so the decoder's (and encoder's)
output does not depend on the PRNG key it is handed. -/
theorem c6_deterministic_reproducible {R : Type} (C : DecodeCfg R)
    (hdet : C.det = true)
    (hdec : ∀ (r₁ r₂ : R) (cur : ℕ) (cap : ℚ) (m : ℕ → Bool),
      C.dec r₁ cur cap m = C.dec r₂ cur cap m) :
    ∀ r₁ r₂, solveModel C r₁ = solveModel C r₂ := by
  intro r₁ r₂
  have h := det_state_eq C hdet hdec r₁ r₂ (2 * C.n - 1)
  unfold solveModel routeList decode_greedy
  rw [h.1, h.2.2.2]

/-- A deterministic configuration over a nontrivial PRNG type, for the C6
witness. -/
def detCfg : DecodeCfg ℕ :=
  { n := 1
    demands := fun _ => 0
    coords := fun _ => (0, 0)
    split := fun k => (k + 1, k + 2)
    dec := fun _ _ _ _ _ => 0
    det := true
    samp := fun _ _ => 0
    lsm := fun _ _ => 0 }

/-- Witness for C6: two different seeds give identical solve outputs. -/
theorem c6_witness : detCfg.det = true ∧ solveModel detCfg 3 = solveModel detCfg 17 :=
  ⟨rfl, c6_deterministic_reproducible detCfg rfl (fun _ _ _ _ _ => rfl) 3 17⟩

/-! ### Claim C8 -/

theorem get_cost_spec : ∀ (route : List ℕ) (coords : ℕ → ℚ × ℚ),
    get_cost coords route = specRouteCost coords route := by
  intro route
  induction route with
  | nil => intro coords; simp [get_cost, specRouteCost]
  | cons a rest ih =>
    intro coords
    cases rest with
    | nil => simp [get_cost, specRouteCost]
    | cons b t =>
      have h1 : get_cost coords (a :: b :: t) =
          distMatrix coords a b + get_cost coords (b :: t) := rfl
      have h2 : specRouteCost coords (a :: b :: t) =
          distMatrix coords a b + specRouteCost coords (b :: t) := by
        unfold specRouteCost distMatrix
        simp only [List.length_cons, Nat.add_sub_cancel]
        rw [Finset.sum_range_succ']
        simp only [List.getD_cons_succ, List.getD_cons_zero]
        ring
      rw [h1, h2, ih]

/-- C8: the cost evaluator returns the sum over consecutive route positions
of the Euclidean distance between the corresponding coordinates
(depot-to-depot repeats contributing 0), and on the concrete instance with
depot (0,0), A (1,0), B (0,1) and route depot-A-B-depot (depot padded) it
returns 1 + sqrt 2 + 1. -/
theorem c8_cost_correct :
    (∀ (coords : ℕ → ℚ × ℚ) (route : List ℕ),
      get_cost coords route = specRouteCost coords route) ∧
      get_cost exCoords [0, 1, 2, 0, 0, 0] = 1 + Real.sqrt 2 + 1 := by
  constructor
  · intro coords route
    exact get_cost_spec route coords
  · show ((([(0, 1), (1, 2), (2, 0), (0, 0), (0, 0)] : List (ℕ × ℕ)).map
      fun p => distMatrix exCoords p.1 p.2).sum) = 1 + Real.sqrt 2 + 1
    simp only [List.map_cons, List.map_nil, List.sum_cons, List.sum_nil]
    unfold distMatrix exCoords
    norm_num
    ring

/-! ### Claim C9 -/

/-- C9 is violated by the code.  The spec says the decoder's internal
multi-head attention gives zero weight to forbidden nodes.  The code passes
the forbidden mask (true = forbidden) directly as the flax attention mask,
whose convention is true = attend: with node 1 forbidden, node 0 allowed and
uniform scores, the forbidden node receives an attention weight above 1/2
(in particular nonzero), while the allowed node is the one masked out. -/
theorem c9_forbidden_gets_weight :
    1 / 2 < decoderGlimpseWeight (fun i => decide (i = 1)) (fun _ => 0) 2 1 ∧
      decoderGlimpseWeight (fun i => decide (i = 1)) (fun _ => 0) 2 1 ≠ 0 := by
  have hms1 : attnMaskedScore (fun i => decide (i = 1)) (fun _ => 0) 1 = 0 := by
    simp [attnMaskedScore]
  have hms0 : attnMaskedScore (fun i => decide (i = 1)) (fun _ => 0) 0 = flaxF32Min := by
    simp [attnMaskedScore]
  have hneg : flaxF32Min < 0 := by
    unfold flaxF32Min
    norm_num
  have hE : Real.exp flaxF32Min < 1 := Real.exp_lt_one_iff.mpr hneg
  have hEpos : 0 < Real.exp flaxF32Min := Real.exp_pos _
  have hsum : ∑ j ∈ Finset.range 2,
      Real.exp (attnMaskedScore (fun i => decide (i = 1)) (fun _ => 0) j) =
      Real.exp flaxF32Min + 1 := by
    rw [Finset.sum_range_succ, Finset.sum_range_one, hms0, hms1, Real.exp_zero]
  unfold decoderGlimpseWeight attnWeight
  rw [hsum, hms1, Real.exp_zero]
  constructor
  · rw [div_lt_div_iff₀ (by norm_num) (by linarith)]
    linarith
  · exact div_ne_zero one_ne_zero (by linarith)
